import Mathlib

/-!
Verification of the StudyGPT semantic retrieval engine.

This file is a shallow embedding of the engine's Python code — the
chunking loop of scripts/run_ingestion.py, the ingestion workflow, the
VectorStore retrieval path of app/vector_store/vector_store.py, and the
retry loop of app/llm/gemini_client.py — together with theorems checking
the specification's claims against that code.

Modelling conventions:
* Python strings are lists of characters, so Python slicing
  text[i : i + n] becomes (text.drop i).take n.
* Embedding vectors are lists of rationals: no claim depends on
  floating-point arithmetic, only on list lengths and identity.
* Remote calls (embedding backend, FAISS search, generation backend)
  are oracle functions passed as parameters; an Option or Except result
  of none / .error models a raised Python exception.
* File-system effects are an explicit record of the two persisted
  artifacts, threaded through the ingestion workflow.
-/

namespace StudyGPT

/-- The metadata dict attached to each chunk by chunk_text. -/
structure ChunkMeta where
  start_char : Nat
  end_char : Nat
  source : String
deriving DecidableEq

/-- One corpus chunk, the dict appended by chunk_text:
id "chunk_<n>", the sliced text, and its metadata. -/
structure Chunk where
  id : String
  text : List Char
  metadata : ChunkMeta
deriving DecidableEq

instance : Inhabited Chunk := ⟨⟨"", [], ⟨0, 0, ""⟩⟩⟩

/-- The CHUNK_SIZE module constant of run_ingestion.py. -/
def CHUNK_SIZE : Nat := 1000

/-- The OVERLAP module constant of run_ingestion.py. -/
def OVERLAP : Nat := 200

/-- The dict built in one iteration of the chunk_text loop:
chunk = text[i : i + cs]; id "chunk_<cid>"; start_char i;
end_char i + len(chunk); source "textbook". -/
def mkChunk (cs : Nat) (text : List Char) (i cid : Nat) : Chunk :=
  { id := "chunk_" ++ toString cid
  , text := (text.drop i).take cs
  , metadata :=
    { start_char := i
    , end_char := i + ((text.drop i).take cs).length
    , source := "textbook" } }

/-- The while-loop of chunk_text with an explicit iteration budget:
while i < len(text): append mkChunk; i += cs - ov; cid += 1.
A result of none means the budget ran out before the loop finished —
the loop itself has no other exit and performs no validation of cs/ov. -/
def chunkLoopFuel (cs ov : Nat) (text : List Char) : Nat → Nat → Nat → Option (List Chunk)
  | 0, _, _ => none
  | fuel + 1, i, cid =>
    if i < text.length then
      match chunkLoopFuel cs ov text fuel (i + (cs - ov)) (cid + 1) with
      | none => none
      | some rest => some (mkChunk cs text i cid :: rest)
    else some []

/-- The chunk_text loop generalised over the two module constants,
run with budget len(text) + 1, which suffices whenever ov < cs. -/
def chunk_gen (cs ov : Nat) (text : List Char) : Option (List Chunk) :=
  chunkLoopFuel cs ov text (text.length + 1) 0 0

/-- chunk_text of run_ingestion.py: the loop at the module constants
CHUNK_SIZE = 1000 and OVERLAP = 200. -/
def chunk_text (text : List Char) : List Chunk :=
  (chunk_gen CHUNK_SIZE OVERLAP text).getD []

/-- The FAISS flat index as far as the engine observes it: the dimension
fixed at construction and the stored vectors in insertion order. -/
structure FaissIndex where
  dimension : Nat
  vectors : List (List Rat)
deriving DecidableEq

/-- The failures run_ingestion can raise.  noTextExtracted is the
ValueError for an empty extraction; emptyCorpus is the IndexError raised
by len(embeddings[0]) on an empty embedding list — the failure the
specification taxonomy names EmptyCorpusError; the two write errors are
IO failures of faiss.write_index and json.dump. -/
inductive IngestError
  | noTextExtracted
  | emptyCorpus
  | writeIndexFailed
  | writeChunksFailed
deriving DecidableEq

/-- build_faiss_index of run_ingestion.py: dimension = len(embeddings[0])
(an IndexError on an empty list), then add all vectors in order. -/
def build_faiss_index (embeddings : List (List Rat)) : Except IngestError FaissIndex :=
  match embeddings with
  | [] => .error .emptyCorpus
  | e0 :: _ => .ok { dimension := e0.length, vectors := embeddings }

/-- The embedding loop of run_ingestion (step 3): for each chunk, call
get_embedding(chunk.text); on success append the vector and the chunk to
embeddings and valid_chunks; on an exception (none) skip the chunk.
The oracle embedFn models genai.embed_content, none being a raised
exception. -/
def ingestLoop (embedFn : List Char → Option (List Rat)) :
    List Chunk → List (List Rat) × List Chunk
  | [] => ([], [])
  | c :: rest =>
    let r := ingestLoop embedFn rest
    match embedFn c.text with
    | some e => (e :: r.1, c :: r.2)
    | none => r

/-- The two persisted artifacts under the data directory:
faiss_index.bin and processed_chunks.json.  none means the file is
absent or unreadable. -/
structure FS where
  indexFile : Option FaissIndex
  chunksFile : Option (List Chunk)
deriving DecidableEq

/-- run_ingestion of run_ingestion.py, with the PDF extraction already
performed (rawText) and the two writes given success flags.  The source
writes each artifact directly to its final path: faiss.write_index
first, then json.dump into the chunks file opened with mode w, which
truncates it before writing — so a failing dump leaves a truncated
chunks file, modelled as chunksFile = none. -/
def run_ingestion (embedFn : List Char → Option (List Rat))
    (writeIndexOk writeChunksOk : Bool) (rawText : List Char) (fs : FS) :
    Except IngestError Unit × FS :=
  if rawText = [] then (.error .noTextExtracted, fs)
  else
    match build_faiss_index (ingestLoop embedFn (chunk_text rawText)).1 with
    | .error e => (.error e, fs)
    | .ok index =>
      if writeIndexOk then
        if writeChunksOk then
          (.ok (), { indexFile := some index
                   , chunksFile := some (ingestLoop embedFn (chunk_text rawText)).2 })
        else
          (.error .writeChunksFailed, { indexFile := some index, chunksFile := none })
      else (.error .writeIndexFailed, fs)

/-- The in-memory state of VectorStore after construction: self.index
(None when not loaded) and self.chunks (empty when not loaded). -/
structure VectorStore where
  index : Option FaissIndex
  chunks : List Chunk
deriving DecidableEq

/-- VectorStore._load_data: each artifact is loaded independently when
its file exists; a missing file silently leaves the default (None / []).
readFails models the except branch, which resets both to None / []. -/
def load_data (readFails : Bool) (fs : FS) : VectorStore :=
  if readFails then { index := none, chunks := [] }
  else { index := fs.indexFile, chunks := fs.chunksFile.getD [] }

/-- VectorStore.retrieve: return [] when the index or the chunk list is
not loaded; embed the query; search; keep chunks at in-range positions.
The oracles model genai.embed_content and faiss search, none being a
raised exception, which the source's except branch converts to [].
The function is total: no failure propagates to the caller. -/
def retrieve (embedFn : List Char → Option (List Rat))
    (searchFn : FaissIndex → List Rat → Nat → Option (List Int))
    (vs : VectorStore) (query : List Char) (k : Nat) : List Chunk :=
  match vs.index with
  | none => []
  | some idx =>
    if vs.chunks = [] then []
    else
      match embedFn query with
      | none => []
      | some qe =>
        match searchFn idx qe k with
        | none => []
        | some positions =>
          positions.filterMap (fun pos =>
            if h : 0 ≤ pos ∧ pos.toNat < vs.chunks.length then
              some (vs.chunks.get ⟨pos.toNat, h.2⟩)
            else none)

/-- The ways one generate attempt can fail: a raised backend exception,
or the ValueError raised on an empty response text. -/
inductive GenFailure
  | backendError (msg : String)
  | emptyResponse
deriving DecidableEq

instance {ε α : Type} [DecidableEq ε] [DecidableEq α] : DecidableEq (Except ε α) :=
  fun x y =>
    match x, y with
    | .ok a, .ok b =>
      if h : a = b then isTrue (by rw [h])
      else isFalse (by intro hc; cases hc; exact h rfl)
    | .error a, .error b =>
      if h : a = b then isTrue (by rw [h])
      else isFalse (by intro hc; cases hc; exact h rfl)
    | .ok _, .error _ => isFalse (by intro hc; cases hc)
    | .error _, .ok _ => isFalse (by intro hc; cases hc)

/-- Everything observable about one GeminiClient.generate call: the
returned text or the final RuntimeError carrying last_error, the
durations passed to time.sleep in order, and how many backend calls
were made. -/
structure GenOutcome where
  result : Except (Option GenFailure) String
  sleeps : List Nat
  calls : Nat
deriving DecidableEq

/-- Whether one attempt counts as a failure in generate: a raised
exception, or a response whose text is empty. -/
def failsB : Except GenFailure String → Bool
  | .error _ => true
  | .ok t => t == ""

/-- The error recorded in last_error for a failing attempt. -/
def failureOf : Except GenFailure String → GenFailure
  | .error e => e
  | .ok _ => .emptyResponse

/-- The retry loop of GeminiClient.generate: for attempt in
range(max_retries): call the backend; return non-empty text at once;
otherwise record the error, sleep min(2 ** attempt, 10), continue.
After the loop raise RuntimeError with the last error.  The remaining
iteration count is the first argument; last is last_error. -/
def genLoop (backend : Nat → Except GenFailure String) :
    Nat → Nat → Option GenFailure → GenOutcome
  | 0, _, last => ⟨.error last, [], 0⟩
  | n + 1, attempt, _ =>
    match backend attempt with
    | .ok t =>
      if t = "" then
        let rest := genLoop backend n (attempt + 1) (some .emptyResponse)
        ⟨rest.result, min (2 ^ attempt) 10 :: rest.sleeps, rest.calls + 1⟩
      else ⟨.ok t, [], 1⟩
    | .error e =>
      let rest := genLoop backend n (attempt + 1) (some e)
      ⟨rest.result, min (2 ^ attempt) 10 :: rest.sleeps, rest.calls + 1⟩

/-- GeminiClient.generate with its backend as an oracle indexed by
attempt number. -/
def generate (backend : Nat → Except GenFailure String) (max_retries : Nat) :
    GenOutcome :=
  genLoop backend max_retries 0 none

/-- Test fixture: an embedding oracle that fails on every text longer
than one character. -/
def embedSkipLong : List Char → Option (List Rat) :=
  fun t => if t.length = 1 then some [1] else none

/-- Test fixture: an embedding oracle that always succeeds. -/
def embedOk : List Char → Option (List Rat) := fun _ => some [1]

/-- Test fixture: an embedding oracle that always fails. -/
def embedNone : List Char → Option (List Rat) := fun _ => none

/-- Test fixture: a search oracle returning positions 0 and 1. -/
def sfTwo : FaissIndex → List Rat → Nat → Option (List Int) :=
  fun _ _ _ => some [0, 1]

/-- Test fixture: a one-character chunk. -/
def cDemo : Chunk := ⟨"chunk_0", ['a'], ⟨0, 1, "textbook"⟩⟩

/-- Test fixture: an index holding two one-dimensional vectors. -/
def idx2 : FaissIndex := ⟨1, [[1], [2]]⟩

/-- Test fixture: a two-character chunk, which embedSkipLong rejects. -/
def c1Demo : Chunk := ⟨"chunk_1", ['b', 'b'], ⟨1, 3, "textbook"⟩⟩

/-- Test fixture: another one-character chunk. -/
def c2Demo : Chunk := ⟨"chunk_2", ['c'], ⟨3, 4, "textbook"⟩⟩

/-- Test fixture: a backend failing on attempts 0 and 1, then
answering. -/
def backendFailTwice : Nat → Except GenFailure String :=
  fun a => if a < 2 then .error (.backendError "x") else .ok "answer"

/-- Test fixture: a backend that raises on every attempt. -/
def backendAlwaysFail : Nat → Except GenFailure String :=
  fun _ => .error (.backendError "boom")

theorem chunkLoopFuel_exit (cs ov : Nat) (text : List Char) :
    ∀ fuel i cid l, chunkLoopFuel cs ov text fuel i cid = some l →
      text.length ≤ i + l.length * (cs - ov) := by
  intro fuel
  induction fuel with
  | zero => intro i cid l h; simp [chunkLoopFuel] at h
  | succ n ih =>
    intro i cid l h
    by_cases hi : i < text.length
    · simp only [chunkLoopFuel, if_pos hi] at h
      cases hrec : chunkLoopFuel cs ov text n (i + (cs - ov)) (cid + 1) with
      | none => rw [hrec] at h; exact absurd h (by simp)
      | some rest =>
        rw [hrec] at h
        have hl : l = mkChunk cs text i cid :: rest := by
          cases h; rfl
        subst hl
        have := ih (i + (cs - ov)) (cid + 1) rest hrec
        simp only [List.length_cons]
        nlinarith [this]
    · simp only [chunkLoopFuel, if_neg hi] at h
      have hl : l = [] := by cases h; rfl
      subst hl
      simp at hi ⊢
      omega

theorem chunkLoopFuel_get (cs ov : Nat) (text : List Char) :
    ∀ fuel i cid l, chunkLoopFuel cs ov text fuel i cid = some l →
      ∀ j, j < l.length →
        l.getD j default = mkChunk cs text (i + j * (cs - ov)) (cid + j) ∧
        i + j * (cs - ov) < text.length := by
  intro fuel
  induction fuel with
  | zero => intro i cid l h; simp [chunkLoopFuel] at h
  | succ n ih =>
    intro i cid l h j hj
    by_cases hi : i < text.length
    · simp only [chunkLoopFuel, if_pos hi] at h
      cases hrec : chunkLoopFuel cs ov text n (i + (cs - ov)) (cid + 1) with
      | none => rw [hrec] at h; exact absurd h (by simp)
      | some rest =>
        rw [hrec] at h
        have hl : l = mkChunk cs text i cid :: rest := by
          cases h; rfl
        subst hl
        cases j with
        | zero =>
          refine ⟨?_, ?_⟩
          · simp
          · simpa using hi
        | succ m =>
          have hm : m < rest.length := by
            simpa [List.length_cons] using hj
          have := ih (i + (cs - ov)) (cid + 1) rest hrec m hm
          constructor
          · have h1 : (mkChunk cs text i cid :: rest).getD (m + 1) default
                = rest.getD m default := by simp
            rw [h1, this.1]
            ring_nf
          · have h2 := this.2
            have : i + (cs - ov) + m * (cs - ov) = i + (m + 1) * (cs - ov) := by ring
            omega
    · simp only [chunkLoopFuel, if_neg hi] at h
      have hl : l = [] := by cases h; rfl
      subst hl
      simp at hj

theorem chunkLoopFuel_isSome (cs ov : Nat) (hcs : ov < cs) (text : List Char) :
    ∀ fuel i cid, text.length - i ≤ fuel * (cs - ov) →
      ∃ l, chunkLoopFuel cs ov text (fuel + 1) i cid = some l := by
  intro fuel
  induction fuel with
  | zero =>
    intro i cid h
    have hi : ¬ i < text.length := by omega
    exact ⟨[], by simp [chunkLoopFuel, if_neg hi]⟩
  | succ n ih =>
    intro i cid h
    by_cases hi : i < text.length
    · have hstep : 0 < cs - ov := by omega
      have hrec : text.length - (i + (cs - ov)) ≤ n * (cs - ov) := by
        have hmul : (n + 1) * (cs - ov) = n * (cs - ov) + (cs - ov) := by ring
        omega
      obtain ⟨rest, hr⟩ := ih (i + (cs - ov)) (cid + 1) hrec
      refine ⟨mkChunk cs text i cid :: rest, ?_⟩
      show (if i < text.length then
          match chunkLoopFuel cs ov text (n + 1) (i + (cs - ov)) (cid + 1) with
          | none => none
          | some rest => some (mkChunk cs text i cid :: rest)
        else some []) = _
      rw [if_pos hi, hr]
    · exact ⟨[], by simp [chunkLoopFuel, if_neg hi]⟩

theorem chunk_gen_isSome (cs ov : Nat) (hcs : ov < cs) (text : List Char) :
    ∃ l, chunk_gen cs ov text = some l := by
  have h : text.length - 0 ≤ text.length * (cs - ov) := by
    have : text.length * 1 ≤ text.length * (cs - ov) :=
      Nat.mul_le_mul_left text.length (by omega)
    omega
  exact chunkLoopFuel_isSome cs ov hcs text text.length 0 0 h

/-- The characterization of chunk_text collected in one place: its result
is the completed loop at constants 1000 / 200, the loop-exit bound holds,
every index below the length was a live loop iteration, and the
j-th chunk is the chunk built at cursor j * 800 with id counter j. -/
theorem chunk_text_char (text : List Char) :
    text.length ≤ (chunk_text text).length * 800 ∧
    (∀ j, j < (chunk_text text).length → j * 800 < text.length) ∧
    (∀ j, j < (chunk_text text).length →
      (chunk_text text).getD j default = mkChunk 1000 text (j * 800) j) := by
  obtain ⟨l, hl⟩ := chunk_gen_isSome CHUNK_SIZE OVERLAP (by simp [CHUNK_SIZE, OVERLAP]) text
  have hct : chunk_text text = l := by simp [chunk_text, hl]
  have hexit := chunkLoopFuel_exit CHUNK_SIZE OVERLAP text _ _ _ _ hl
  have hget := chunkLoopFuel_get CHUNK_SIZE OVERLAP text _ _ _ _ hl
  rw [hct]
  have hco : CHUNK_SIZE - OVERLAP = 800 := by simp [CHUNK_SIZE, OVERLAP]
  refine ⟨?_, ?_, ?_⟩
  · rw [hco] at hexit; omega
  · intro j hj
    have := (hget j hj).2
    rw [hco] at this; omega
  · intro j hj
    have := (hget j hj).1
    rw [hco] at this
    simpa [CHUNK_SIZE] using this

/-- The length of the j-th chunk's text: the clipped slice
text[j*800 : j*800 + 1000]. -/
theorem chunk_text_text_length (text : List Char) (j : Nat)
    (hj : j < (chunk_text text).length) :
    ((chunk_text text).getD j default).text.length
      = min 1000 (text.length - j * 800) := by
  have h := (chunk_text_char text).2.2 j hj
  rw [h]
  simp [mkChunk]

/-- chunk_text on a nonempty text is nonempty. -/
theorem chunk_text_ne_nil (text : List Char) (h : text ≠ []) :
    chunk_text text ≠ [] := by
  intro hnil
  have hc := (chunk_text_char text).1
  rw [hnil] at hc
  simp only [List.length_nil, Nat.zero_mul] at hc
  exact h (List.length_eq_zero.mp (Nat.le_zero.mp hc))

/-- An explicit description of chunk_text on an 801-character text:
two chunks, the whole text and the final character, with ids
chunk_0 and chunk_1. -/
theorem chunk_text_801 :
    chunk_text (List.replicate 801 'a')
      = [mkChunk 1000 (List.replicate 801 'a') 0 0,
         mkChunk 1000 (List.replicate 801 'a') 800 1] := by
  obtain ⟨hexit, hlive, hget⟩ := chunk_text_char (List.replicate 801 'a')
  have hlen : (chunk_text (List.replicate 801 'a')).length = 2 := by
    simp only [List.length_replicate] at hexit hlive
    by_contra hne
    rcases Nat.lt_or_ge (chunk_text (List.replicate 801 'a')).length 2 with h2 | h2
    · omega
    · have := hlive 2 (by omega)
      omega
  obtain ⟨a, b, hab⟩ := List.length_eq_two.mp hlen
  have h0 := hget 0 (by omega)
  have h1 := hget 1 (by omega)
  rw [hab] at h0 h1 ⊢
  rw [List.getD_cons_zero] at h0
  rw [List.getD_cons_succ, List.getD_cons_zero] at h1
  rw [h0, h1]

/-- An explicit description of chunk_text on a 2050-character text:
three chunks starting at 0, 800 and 1600. -/
theorem chunk_text_2050 :
    chunk_text (List.replicate 2050 'a')
      = [mkChunk 1000 (List.replicate 2050 'a') 0 0,
         mkChunk 1000 (List.replicate 2050 'a') 800 1,
         mkChunk 1000 (List.replicate 2050 'a') 1600 2] := by
  obtain ⟨hexit, hlive, hget⟩ := chunk_text_char (List.replicate 2050 'a')
  have hlen : (chunk_text (List.replicate 2050 'a')).length = 3 := by
    simp only [List.length_replicate] at hexit hlive
    by_contra hne
    rcases Nat.lt_or_ge (chunk_text (List.replicate 2050 'a')).length 3 with h3 | h3
    · omega
    · have := hlive 3 (by omega)
      omega
  obtain ⟨a, b, c, habc⟩ := List.length_eq_three.mp hlen
  have h0 := hget 0 (by omega)
  have h1 := hget 1 (by omega)
  have h2 := hget 2 (by omega)
  rw [habc] at h0 h1 h2 ⊢
  rw [List.getD_cons_zero] at h0
  rw [List.getD_cons_succ, List.getD_cons_zero] at h1
  rw [List.getD_cons_succ, List.getD_cons_succ, List.getD_cons_zero] at h2
  rw [h0, h1, h2]

theorem retrieve_no_kb (ef : List Char → Option (List Rat))
    (sf : FaissIndex → List Rat → Nat → Option (List Int))
    (vs : VectorStore) (q : List Char) (k : Nat)
    (h : vs.index = none ∨ vs.chunks = []) : retrieve ef sf vs q k = [] := by
  rcases h with h | h
  · simp [retrieve, h]
  · cases hidx : vs.index with
    | none => simp [retrieve, hidx]
    | some idx => simp [retrieve, hidx, h]

theorem retrieve_embed_fail (ef : List Char → Option (List Rat))
    (sf : FaissIndex → List Rat → Nat → Option (List Int))
    (vs : VectorStore) (q : List Char) (k : Nat)
    (h : ef q = none) : retrieve ef sf vs q k = [] := by
  cases hidx : vs.index with
  | none => simp [retrieve, hidx]
  | some idx =>
    by_cases hc : vs.chunks = []
    · simp [retrieve, hidx, hc]
    · simp [retrieve, hidx, hc, h]

theorem retrieve_search_fail (ef : List Char → Option (List Rat))
    (sf : FaissIndex → List Rat → Nat → Option (List Int))
    (vs : VectorStore) (q : List Char) (k : Nat) (idx : FaissIndex)
    (qe : List Rat) (hidx : vs.index = some idx) (hq : ef q = some qe)
    (hs : sf idx qe k = none) : retrieve ef sf vs q k = [] := by
  by_cases hc : vs.chunks = []
  · simp [retrieve, hidx, hc]
  · simp [retrieve, hidx, hc, hq, hs]

/-- C1: for every query string and every k, if the FAISS index or the
chunk list failed to load at startup, retrieve returns the empty
sequence; and for any failure during query-time embedding or search,
retrieve returns the empty sequence.  retrieve is a total function into
chunk lists, so no exception reaches the caller. -/
theorem C1_retrieve_never_raises :
    ∀ (ef : List Char → Option (List Rat))
      (sf : FaissIndex → List Rat → Nat → Option (List Int))
      (vs : VectorStore) (q : List Char) (k : Nat),
      (vs.index = none ∨ vs.chunks = [] → retrieve ef sf vs q k = []) ∧
      (ef q = none → retrieve ef sf vs q k = []) ∧
      (∀ idx qe, vs.index = some idx → ef q = some qe → sf idx qe k = none →
        retrieve ef sf vs q k = []) := by
  intro ef sf vs q k
  exact ⟨retrieve_no_kb ef sf vs q k,
         retrieve_embed_fail ef sf vs q k,
         fun idx qe hidx hq hs => retrieve_search_fail ef sf vs q k idx qe hidx hq hs⟩

/-- Witness for C1 at a store whose index failed to load. -/
theorem C1_retrieve_never_raises_witness :
    retrieve embedNone sfTwo ⟨none, [cDemo]⟩ ['q'] 3 = [] :=
  (C1_retrieve_never_raises embedNone sfTwo ⟨none, [cDemo]⟩ ['q'] 3).1 (Or.inl rfl)

theorem ingestLoop_filter (f : List Char → Option (List Rat)) :
    ∀ chunks, (ingestLoop f chunks).2 = chunks.filter (fun c => (f c.text).isSome) := by
  intro chunks
  induction chunks with
  | nil => simp [ingestLoop]
  | cons c rest ih =>
    cases hfc : f c.text with
    | none => simp [ingestLoop, hfc, ih]
    | some e => simp [ingestLoop, hfc, ih]

theorem ingestLoop_map (f : List Char → Option (List Rat)) :
    ∀ chunks, (ingestLoop f chunks).1
      = (ingestLoop f chunks).2.map (fun c => (f c.text).getD []) := by
  intro chunks
  induction chunks with
  | nil => simp [ingestLoop]
  | cons c rest ih =>
    cases hfc : f c.text with
    | none => simp [ingestLoop, hfc, ih]
    | some e => simp [ingestLoop, hfc, ih]

theorem ingestLoop_allNone (f : List Char → Option (List Rat)) :
    ∀ chunks, (∀ c ∈ chunks, f c.text = none) → ingestLoop f chunks = ([], []) := by
  intro chunks
  induction chunks with
  | nil => intro _; rfl
  | cons c rest ih =>
    intro h
    have hc := h c (by simp)
    have hr := ih (fun d hd => h d (by simp [hd]))
    simp [ingestLoop, hc, hr]

/-- C2: the embedding loop of ingestion keeps embeddings and surviving
chunks in lock-step: the surviving chunks are exactly the chunks whose
embedding call succeeded, in order; the embedding list is the image of
the surviving chunks under the embedding call, so the i-th embedding
was computed from the i-th surviving chunk's text and both lists have
the same length.  In the 3-chunk scenario with exactly chunk 1 failing,
both collections hold exactly the two aligned survivors and the failed
chunk's text appears in neither. -/
theorem C2_lockstep_filtering :
    ∀ (f : List Char → Option (List Rat)) (chunks : List Chunk),
      ((ingestLoop f chunks).2 = chunks.filter (fun c => (f c.text).isSome) ∧
       (ingestLoop f chunks).1
         = (ingestLoop f chunks).2.map (fun c => (f c.text).getD []) ∧
       (ingestLoop f chunks).1.length = (ingestLoop f chunks).2.length) ∧
      (∀ c0 c1 c2 v0 v2, f c0.text = some v0 → f c1.text = none →
        f c2.text = some v2 →
        ingestLoop f [c0, c1, c2] = ([v0, v2], [c0, c2]) ∧
        (c1.text ≠ c0.text → c1.text ≠ c2.text →
          c1.text ∉ (ingestLoop f [c0, c1, c2]).2.map (fun c => c.text))) := by
  intro f chunks
  constructor
  · refine ⟨ingestLoop_filter f chunks, ingestLoop_map f chunks, ?_⟩
    rw [ingestLoop_map f chunks]
    simp
  · intro c0 c1 c2 v0 v2 h0 h1 h2
    constructor
    · simp [ingestLoop, h0, h1, h2]
    · intro hne0 hne2
      simp [ingestLoop, h0, h1, h2]
      exact ⟨hne0, hne2⟩

/-- Witness for C2: three chunks whose middle text is rejected by the
embedding oracle. -/
theorem C2_lockstep_filtering_witness :
    ingestLoop embedSkipLong [cDemo, c1Demo, c2Demo] = ([[1], [1]], [cDemo, c2Demo]) ∧
    c1Demo.text ∉ (ingestLoop embedSkipLong [cDemo, c1Demo, c2Demo]).2.map
      (fun c => c.text) := by
  have h := (C2_lockstep_filtering embedSkipLong [cDemo, c1Demo, c2Demo]).2
    cDemo c1Demo c2Demo [1] [1] (by decide) (by decide) (by decide)
  exact ⟨h.1, h.2 (by decide) (by decide)⟩

/-- C6: if zero chunks survive the embedding step, ingestion fails
rather than completing: when every per-chunk embedding call fails the
run ends in the empty-corpus failure (the IndexError raised by
build_faiss_index on an empty list, which the specification names
EmptyCorpusError), and an empty chunk list can only arise from an empty
extracted text, which already fails earlier; in neither case does the
run succeed. -/
theorem C6_empty_corpus_fails :
    ∀ (f : List Char → Option (List Rat)) (wI wC : Bool)
      (rawText : List Char) (fs : FS),
      (rawText ≠ [] → (∀ c ∈ chunk_text rawText, f c.text = none) →
        (run_ingestion f wI wC rawText fs).1 = .error .emptyCorpus) ∧
      (rawText = [] →
        (run_ingestion f wI wC rawText fs).1 = .error .noTextExtracted) ∧
      (∀ u, (∀ c ∈ chunk_text rawText, f c.text = none) →
        (run_ingestion f wI wC rawText fs).1 ≠ .ok u) := by
  intro f wI wC rawText fs
  refine ⟨?_, ?_, ?_⟩
  · intro hne hall
    have hloop := ingestLoop_allNone f (chunk_text rawText) hall
    simp [run_ingestion, hne, hloop, build_faiss_index]
  · intro he
    simp [run_ingestion, he]
  · intro u hall
    by_cases hne : rawText = []
    · simp [run_ingestion, hne]
    · have hloop := ingestLoop_allNone f (chunk_text rawText) hall
      simp [run_ingestion, hne, hloop, build_faiss_index]

/-- Witness for C6: a two-character text whose only chunk fails to
embed. -/
theorem C6_empty_corpus_fails_witness :
    (run_ingestion embedNone true true ['a', 'b'] ⟨none, none⟩).1
      = .error .emptyCorpus :=
  (C6_empty_corpus_fails embedNone true true ['a', 'b'] ⟨none, none⟩).1
    (by simp) (fun c _ => rfl)

theorem genLoop_fail_step (backend : Nat → Except GenFailure String)
    (n attempt : Nat) (last : Option GenFailure)
    (h : failsB (backend attempt) = true) :
    genLoop backend (n + 1) attempt last =
      ⟨(genLoop backend n (attempt + 1) (some (failureOf (backend attempt)))).result,
       min (2 ^ attempt) 10
         :: (genLoop backend n (attempt + 1) (some (failureOf (backend attempt)))).sleeps,
       (genLoop backend n (attempt + 1) (some (failureOf (backend attempt)))).calls + 1⟩ := by
  cases hb : backend attempt with
  | ok t =>
    have ht : t = "" := by rw [hb] at h; simpa [failsB] using h
    simp [genLoop, hb, ht, failureOf]
  | error e => simp [genLoop, hb, failureOf]

theorem genLoop_allFail (backend : Nat → Except GenFailure String) :
    ∀ n attempt last,
      (∀ a, attempt ≤ a → a < attempt + (n + 1) → failsB (backend a) = true) →
      genLoop backend (n + 1) attempt last =
        ⟨.error (some (failureOf (backend (attempt + n)))),
         (List.range' attempt (n + 1)).map (fun a => min (2 ^ a) 10), n + 1⟩ := by
  intro n
  induction n with
  | zero =>
    intro attempt last h
    have hstep := genLoop_fail_step backend 0 attempt last
      (h attempt (le_refl _) (by omega))
    rw [hstep]
    simp [genLoop, List.range']
  | succ m ih =>
    intro attempt last h
    have hstep := genLoop_fail_step backend (m + 1) attempt last
      (h attempt (le_refl _) (by omega))
    have hrec := ih (attempt + 1) (some (failureOf (backend attempt)))
      (fun a h1 h2 => h a (by omega) (by omega))
    rw [hstep, hrec]
    have harg : attempt + 1 + m = attempt + (m + 1) := by omega
    rw [harg]
    simp [List.range'_succ]

theorem genLoop_succeedAt (backend : Nat → Except GenFailure String) :
    ∀ k n attempt last t, k < n →
      (∀ a, attempt ≤ a → a < attempt + k → failsB (backend a) = true) →
      backend (attempt + k) = .ok t → t ≠ "" →
      genLoop backend n attempt last =
        ⟨.ok t, (List.range' attempt k).map (fun a => min (2 ^ a) 10), k + 1⟩ := by
  intro k
  induction k with
  | zero =>
    intro n attempt last t hkn h hb ht
    obtain ⟨m, rfl⟩ : ∃ m, n = m + 1 := ⟨n - 1, by omega⟩
    rw [Nat.add_zero] at hb
    simp [genLoop, hb, ht, List.range']
  | succ j ih =>
    intro n attempt last t hkn h hb ht
    obtain ⟨m, rfl⟩ : ∃ m, n = m + 1 := ⟨n - 1, by omega⟩
    have hb1 : backend (attempt + 1 + j) = .ok t := by
      rw [← hb]; congr 1; omega
    have hstep := genLoop_fail_step backend m attempt last
      (h attempt (le_refl _) (by omega))
    have hrec := ih m (attempt + 1) (some (failureOf (backend attempt))) t (by omega)
      (fun a h1 h2 => h a (by omega) (by omega)) hb1 ht
    rw [hstep, hrec]
    simp [List.range'_succ]

/-- C3: generate follows the retry state machine.  If the first k
attempts fail and attempt k returns non-empty text t with k below
max_retries, generate returns t after exactly the k backoff sleeps
min(2 ** a, 10) for a = 0..k-1, having made k + 1 backend calls.  If
every attempt fails, generate makes exactly max_retries calls and ends
in the exhaustion error carrying the failure of the last attempt. -/
theorem C3_retry_state_machine :
    ∀ (backend : Nat → Except GenFailure String) (m k : Nat) (t : String),
      (k < m → (∀ a, a < k → failsB (backend a) = true) → backend k = .ok t →
        t ≠ "" →
        generate backend m
          = ⟨.ok t, (List.range k).map (fun a => min (2 ^ a) 10), k + 1⟩) ∧
      (0 < m → (∀ a, a < m → failsB (backend a) = true) →
        generate backend m
          = ⟨.error (some (failureOf (backend (m - 1)))),
             (List.range m).map (fun a => min (2 ^ a) 10), m⟩) := by
  intro backend m k t
  constructor
  · intro hk h hb ht
    have hg := genLoop_succeedAt backend k m 0 none t hk
      (fun a _ h2 => h a (by omega)) (by simpa using hb) ht
    rw [List.range_eq_range']
    exact hg
  · intro hm h
    obtain ⟨n, rfl⟩ : ∃ n, m = n + 1 := ⟨m - 1, by omega⟩
    have hg := genLoop_allFail backend n 0 none (fun a _ h2 => h a (by omega))
    rw [List.range_eq_range']
    simpa using hg

/-- Witness for C3: a backend failing twice then answering returns the
text after sleeps of 1 and 2; an always-failing backend exhausts three
attempts, sleeping 1, 2 and 4, and surfaces the last cause. -/
theorem C3_retry_state_machine_witness :
    generate backendFailTwice 3 = ⟨.ok "answer", [1, 2], 3⟩ ∧
    generate backendAlwaysFail 3
      = ⟨.error (some (.backendError "boom")), [1, 2, 4], 3⟩ := by
  constructor
  · have h := (C3_retry_state_machine backendFailTwice 3 2 "answer").1
      (by omega) (by decide) (by decide) (by decide)
    rw [h]
    decide
  · have h := (C3_retry_state_machine backendAlwaysFail 3 0 "").2
      (by omega) (by decide)
    rw [h]
    decide

/-- C9: with a backend failing on every attempt, generate sleeps after
every failed attempt including the final one — exactly max_retries
sleeps of durations min(2 ** a, 10) for a = 0..max_retries-1 — and only
then raises the exhaustion error. -/
theorem C9_sleeps_after_every_failure :
    ∀ (backend : Nat → Except GenFailure String) (m : Nat),
      (∀ a, a < m → failsB (backend a) = true) →
      (generate backend m).sleeps = (List.range m).map (fun a => min (2 ^ a) 10) ∧
      (generate backend m).calls = m ∧
      (0 < m → (generate backend m).result
        = .error (some (failureOf (backend (m - 1))))) := by
  intro backend m h
  cases m with
  | zero =>
    exact ⟨by simp [generate, genLoop], by simp [generate, genLoop], by omega⟩
  | succ n =>
    have hg := genLoop_allFail backend n 0 none (fun a _ h2 => h a (by omega))
    rw [List.range_eq_range']
    refine ⟨?_, ?_, ?_⟩
    · show (genLoop backend (n + 1) 0 none).sleeps = _
      rw [hg]
    · show (genLoop backend (n + 1) 0 none).calls = n + 1
      rw [hg]
    · intro _
      show (genLoop backend (n + 1) 0 none).result = _
      rw [hg]
      simp

/-- Witness for C9: the always-failing backend with max_retries = 3
sleeps 1, 2 and 4 — three sleeps, one after the final attempt too. -/
theorem C9_sleeps_after_every_failure_witness :
    (generate backendAlwaysFail 3).sleeps = [1, 2, 4] := by
  have h := (C9_sleeps_after_every_failure backendAlwaysFail 3 (by decide)).1
  rw [h]
  decide

theorem chunkLoopFuel_nonadvancing (cs ov : Nat) (text : List Char)
    (hcs : cs ≤ ov) :
    (∀ fuel i cid, i < text.length →
      chunkLoopFuel cs ov text fuel i cid = none) ∧
    (text ≠ [] → chunk_gen cs ov text = none) := by
  have hloop : ∀ fuel i cid, i < text.length →
      chunkLoopFuel cs ov text fuel i cid = none := by
    intro fuel
    induction fuel with
    | zero => intro i cid hi; rfl
    | succ n ih =>
      intro i cid hi
      have hrec := ih (i + (cs - ov)) (cid + 1) (by omega)
      show (if i < text.length then
          match chunkLoopFuel cs ov text n (i + (cs - ov)) (cid + 1) with
          | none => none
          | some rest => some (mkChunk cs text i cid :: rest)
        else some []) = none
      rw [if_pos hi, hrec]
  refine ⟨hloop, ?_⟩
  intro hne
  have hpos : 0 < text.length := List.length_pos.mpr hne
  exact hloop (text.length + 1) 0 0 hpos

/-- C7 (code bug): at chunk_size = overlap = 1000 (so
chunk_size - overlap = 0) on a nonempty text the chunk_text loop never
advances its cursor: no iteration budget whatsoever completes the loop.
The source performs no parameter validation, so this configuration
hangs instead of failing with a ConfigError. -/
theorem C7_nonadvancing_loop_never_terminates :
    (∀ fuel cid, chunkLoopFuel 1000 1000 ['a'] fuel 0 cid = none) ∧
    chunk_gen 1000 1000 ['a'] = none := by
  have h := chunkLoopFuel_nonadvancing 1000 1000 ['a'] (le_refl 1000)
  exact ⟨fun fuel cid => h.1 fuel 0 cid (by simp), h.2 (by simp)⟩

/-- C10: every chunk produced by chunk_text has end_char equal to
start_char plus the length of its text, end_char at most the length of
the input, and non-empty text; and the start_char values of successive
chunks increase by exactly CHUNK_SIZE - OVERLAP. -/
theorem C10_chunk_metadata_invariants :
    ∀ text : List Char,
      (∀ c ∈ chunk_text text,
        c.metadata.end_char = c.metadata.start_char + c.text.length ∧
        c.metadata.end_char ≤ text.length ∧
        c.text ≠ []) ∧
      (∀ j, j + 1 < (chunk_text text).length →
        ((chunk_text text).getD (j + 1) default).metadata.start_char
          = ((chunk_text text).getD j default).metadata.start_char
            + (CHUNK_SIZE - OVERLAP)) := by
  intro text
  obtain ⟨hexit, hlive, hget⟩ := chunk_text_char text
  constructor
  · intro c hc
    obtain ⟨⟨j, hj⟩, rfl⟩ := List.mem_iff_get.mp hc
    have hgd : (chunk_text text).getD j default = (chunk_text text).get ⟨j, hj⟩ :=
      List.getD_eq_get _ _ hj
    have hcj := hget j hj
    rw [hgd] at hcj
    rw [hcj]
    have hlen : ((text.drop (j * 800)).take 1000).length
        = min 1000 (text.length - j * 800) := by
      simp [List.length_take, List.length_drop]
    have hj800 := hlive j hj
    refine ⟨by simp [mkChunk], ?_, ?_⟩
    · show j * 800 + ((text.drop (j * 800)).take 1000).length ≤ text.length
      rw [hlen]
      omega
    · show (text.drop (j * 800)).take 1000 ≠ []
      have : 0 < ((text.drop (j * 800)).take 1000).length := by
        rw [hlen]; omega
      exact List.ne_nil_of_length_pos this
  · intro j hj
    have h0 := hget j (by omega)
    have h1 := hget (j + 1) hj
    rw [h0, h1]
    show (j + 1) * 800 = j * 800 + (CHUNK_SIZE - OVERLAP)
    simp [CHUNK_SIZE, OVERLAP]
    ring

/-- Witness for C10 on an 801-character text: the first chunk has
non-empty text and the second chunk starts 800 characters after the
first. -/
theorem C10_chunk_metadata_invariants_witness :
    (mkChunk 1000 (List.replicate 801 'a') 0 0).text ≠ [] ∧
    ((chunk_text (List.replicate 801 'a')).getD (0 + 1) default).metadata.start_char
      = ((chunk_text (List.replicate 801 'a')).getD 0 default).metadata.start_char
        + (CHUNK_SIZE - OVERLAP) := by
  refine ⟨?_, ?_⟩
  · exact ((C10_chunk_metadata_invariants (List.replicate 801 'a')).1
      (mkChunk 1000 (List.replicate 801 'a') 0 0)
      (by rw [chunk_text_801]; exact List.mem_cons_self _ _)).2.2
  · have h := (C10_chunk_metadata_invariants (List.replicate 801 'a')).2 0
      (by rw [chunk_text_801]
          exact Nat.lt_of_sub_eq_succ rfl)
    exact h

theorem chunk_gen_char (cs ov : Nat) (text : List Char) (l : List Chunk)
    (hl : chunk_gen cs ov text = some l) :
    text.length ≤ l.length * (cs - ov) ∧
    (∀ j, j < l.length → j * (cs - ov) < text.length) ∧
    (∀ j, j < l.length → l.getD j default = mkChunk cs text (j * (cs - ov)) j) := by
  have hexit := chunkLoopFuel_exit cs ov text _ _ _ _ hl
  have hget := chunkLoopFuel_get cs ov text _ _ _ _ hl
  refine ⟨by omega, ?_, ?_⟩
  · intro j hj
    have := (hget j hj).2
    omega
  · intro j hj
    have := (hget j hj).1
    simpa using this

/-- Counterexample to C4 as stated: with chunk_size 10 and overlap 8
(so 0 < overlap < chunk_size) on a 15-character text there are 8
chunks; chunks 3 and 4 are consecutive and neither is the last chunk,
yet their overlapping region is end_char(3) - start_char(4)
= 15 - 8 = 7 characters, not 8 — clipping at the end of the text can
shorten the overlap even for pairs not involving the last chunk. -/
theorem C4_overlap_counterexample :
    3 + 2 < ((chunk_gen 10 8 (List.replicate 15 'a')).getD []).length ∧
    (((chunk_gen 10 8 (List.replicate 15 'a')).getD []).getD 3 default).metadata.end_char
        - (((chunk_gen 10 8 (List.replicate 15 'a')).getD []).getD 4 default).metadata.start_char
      ≠ 8 := by decide

/-- C4 (amended): for 0 < overlap < chunk_size the chunks cover the
text with no gaps — the first chunk starts at 0, each next chunk starts
at or before the previous chunk's end, and the last chunk ends exactly
at the end of the text — and the overlapping region between consecutive
chunks is exactly overlap characters whenever the earlier chunk is
unclipped (its span is the full chunk_size); a clipped non-final chunk,
possible once 2 * overlap ≥ chunk_size, can overlap less.  The
2050-character scenario at the module constants yields start_char
values 0, 800, 1600 and a final chunk of 450 characters. -/
theorem C4_coverage_amended :
    ∀ (cs ov : Nat) (text : List Char) (l : List Chunk),
      0 < ov → ov < cs → chunk_gen cs ov text = some l →
      ((text ≠ [] → l ≠ []) ∧
       (l ≠ [] → (l.getD 0 default).metadata.start_char = 0) ∧
       (∀ j, j + 1 < l.length →
         (l.getD (j + 1) default).metadata.start_char
           ≤ (l.getD j default).metadata.end_char) ∧
       (l ≠ [] → (l.getD (l.length - 1) default).metadata.end_char = text.length) ∧
       (∀ j, j + 1 < l.length →
         (l.getD j default).metadata.end_char
             = (l.getD j default).metadata.start_char + cs →
         (l.getD j default).metadata.end_char
           = (l.getD (j + 1) default).metadata.start_char + ov)) ∧
      ((chunk_text (List.replicate 2050 'a')).map (fun c => c.metadata.start_char)
         = [0, 800, 1600] ∧
       ((chunk_text (List.replicate 2050 'a')).getD 2 default).text.length = 450) := by
  intro cs ov text l hov hcs hl
  obtain ⟨hexit, hlive, hget⟩ := chunk_gen_char cs ov text l hl
  constructor
  · refine ⟨?_, ?_, ?_, ?_, ?_⟩
    · intro ht hnil
      rw [hnil] at hexit
      simp only [List.length_nil, Nat.zero_mul] at hexit
      exact ht (List.length_eq_zero.mp (by omega))
    · intro hn
      have h0 := hget 0 (List.length_pos.mpr hn)
      rw [h0]
      simp [mkChunk]
    · intro j hj
      have h0 := hget j (by omega)
      have h1 := hget (j + 1) hj
      have hlive1 := hlive (j + 1) hj
      rw [h0, h1]
      simp only [mkChunk]
      have hlen : ((text.drop (j * (cs - ov))).take cs).length
          = min cs (text.length - j * (cs - ov)) := by
        simp [List.length_take, List.length_drop]
      rw [hlen]
      have hsucc : (j + 1) * (cs - ov) = j * (cs - ov) + (cs - ov) := by ring
      rw [hsucc] at hlive1 ⊢
      generalize j * (cs - ov) = A at hlive1 ⊢
      omega
    · intro hn
      have hpos : 0 < l.length := List.length_pos.mpr hn
      obtain ⟨m, hm'⟩ : ∃ m, l.length = m + 1 := ⟨l.length - 1, by omega⟩
      have hm := hget (l.length - 1) (by omega)
      have hlivem := hlive (l.length - 1) (by omega)
      rw [hm]
      simp only [mkChunk]
      have hlen : ((text.drop ((l.length - 1) * (cs - ov))).take cs).length
          = min cs (text.length - (l.length - 1) * (cs - ov)) := by
        simp [List.length_take, List.length_drop]
      rw [hlen]
      rw [hm'] at hexit
      have hmul : (m + 1) * (cs - ov) = m * (cs - ov) + (cs - ov) := by ring
      rw [hmul] at hexit
      have hm1 : l.length - 1 = m := by omega
      rw [hm1] at hlivem ⊢
      generalize m * (cs - ov) = A at hexit hlivem ⊢
      omega
    · intro j hj hclip
      have h0 := hget j (by omega)
      have h1 := hget (j + 1) hj
      rw [h0] at hclip ⊢
      rw [h1]
      simp only [mkChunk] at hclip ⊢
      have htake : ((text.drop (j * (cs - ov))).take cs).length = cs := by omega
      rw [htake]
      have hsucc : (j + 1) * (cs - ov) = j * (cs - ov) + (cs - ov) := by ring
      rw [hsucc]
      generalize j * (cs - ov) = A
      omega
  · constructor
    · rw [chunk_text_2050]
      simp only [List.map_cons, List.map_nil, mkChunk]
    · rw [chunk_text_2050]
      simp only [List.getD_cons_succ, List.getD_cons_zero, mkChunk]
      simp only [List.length_take, List.length_drop, List.length_replicate]
      norm_num

/-- Witness for C4 at the counterexample parameters (coverage still
holds there) and the 2050-character scenario. -/
theorem C4_coverage_amended_witness :
    ((chunk_gen 10 8 (List.replicate 15 'a')).getD [] ≠ []) ∧
    (chunk_text (List.replicate 2050 'a')).map (fun c => c.metadata.start_char)
      = [0, 800, 1600] := by
  have h := C4_coverage_amended 10 8 (List.replicate 15 'a')
    ((chunk_gen 10 8 (List.replicate 15 'a')).getD [])
    (by omega) (by omega) (by decide)
  exact ⟨h.1.1 (by decide), h.2.1⟩

theorem ingestLoop_allSome (f : List Char → Option (List Rat))
    (chunks : List Chunk) (h : ∀ c ∈ chunks, (f c.text).isSome = true) :
    (ingestLoop f chunks).2 = chunks := by
  rw [ingestLoop_filter]
  exact List.filter_eq_self.mpr h

theorem ingestLoop_cons_none (f : List Char → Option (List Rat))
    (c : Chunk) (rest : List Chunk) (h : f c.text = none) :
    ingestLoop f (c :: rest) = ingestLoop f rest := by
  simp [ingestLoop, h]

theorem ingestLoop_cons_some (f : List Char → Option (List Rat))
    (c : Chunk) (rest : List Chunk) (e : List Rat) (h : f c.text = some e) :
    ingestLoop f (c :: rest)
      = (e :: (ingestLoop f rest).1, c :: (ingestLoop f rest).2) := by
  simp [ingestLoop, h]

set_option maxRecDepth 8000 in
/-- Counterexample to C5 as stated: an 801-character text yields two
chunks; the embedding oracle rejects the first (801 characters of
text) and accepts the second (1 character).  The ingestion run
succeeds, but the persisted corpus holds at position 0 the passage
with id "chunk_1", not "chunk_0" — a single skipped chunk breaks the
positional lock-step between index and id. -/
theorem C5_id_lockstep_counterexample :
    (run_ingestion embedSkipLong true true (List.replicate 801 'a')
        ⟨none, none⟩).1 = .ok () ∧
    ((run_ingestion embedSkipLong true true (List.replicate 801 'a')
        ⟨none, none⟩).2.chunksFile.getD []).map (fun c => c.id) = ["chunk_1"] ∧
    ("chunk_1" : String) ≠ "chunk_0" := by
  have hlen0 : (mkChunk 1000 (List.replicate 801 'a') 0 0).text.length = 801 := by
    show (((List.replicate 801 'a').drop 0).take 1000).length = 801
    rw [List.length_take, List.length_drop, List.length_replicate]
    omega
  have hlen1 : (mkChunk 1000 (List.replicate 801 'a') 800 1).text.length = 1 := by
    show (((List.replicate 801 'a').drop 800).take 1000).length = 1
    rw [List.length_take, List.length_drop, List.length_replicate]
    omega
  have hc0 : embedSkipLong (mkChunk 1000 (List.replicate 801 'a') 0 0).text
      = none := by
    unfold embedSkipLong
    rw [hlen0]
    rfl
  have hc1 : embedSkipLong (mkChunk 1000 (List.replicate 801 'a') 800 1).text
      = some [1] := by
    unfold embedSkipLong
    rw [hlen1]
    rfl
  have hloop : ingestLoop embedSkipLong (chunk_text (List.replicate 801 'a'))
      = ([[1]], [mkChunk 1000 (List.replicate 801 'a') 800 1]) := by
    rw [chunk_text_801,
        ingestLoop_cons_none embedSkipLong _ _ hc0,
        ingestLoop_cons_some embedSkipLong _ _ _ hc1]
    rfl
  have hne : (List.replicate 801 'a') ≠ ([] : List Char) := by
    apply List.ne_nil_of_length_pos
    rw [List.length_replicate]
    omega
  refine ⟨?_, ?_, by decide⟩
  · unfold run_ingestion
    rw [if_neg hne, hloop]
    rfl
  · unfold run_ingestion
    rw [if_neg hne, hloop]
    show ([mkChunk 1000 (List.replicate 801 'a') 800 1].map (fun c => c.id))
      = ["chunk_1"]
    rw [List.map_cons, List.map_nil]
    rfl

/-- C5 (amended): after a successful ingestion run in which every
per-chunk embedding call succeeded (no chunk skipped), the persisted
corpus is exactly the chunk list and the passage at position i has id
"chunk_<i>".  The counterexample shows the invariant fails as soon as
one chunk is skipped, because ids keep their pre-filter numbering. -/
theorem C5_id_lockstep_amended :
    ∀ (f : List Char → Option (List Rat)) (rawText : List Char) (fs : FS),
      rawText ≠ [] →
      (∀ c ∈ chunk_text rawText, (f c.text).isSome = true) →
      (run_ingestion f true true rawText fs).1 = .ok () ∧
      (run_ingestion f true true rawText fs).2.chunksFile
        = some (chunk_text rawText) ∧
      (∀ j, j < (chunk_text rawText).length →
        ((chunk_text rawText).getD j default).id = "chunk_" ++ toString j) := by
  intro f rawText fs hraw hall
  have hvalid : (ingestLoop f (chunk_text rawText)).2 = chunk_text rawText :=
    ingestLoop_allSome f (chunk_text rawText) hall
  have hcne : chunk_text rawText ≠ [] := chunk_text_ne_nil rawText hraw
  have hemb : (ingestLoop f (chunk_text rawText)).1 ≠ [] := by
    rw [ingestLoop_map, hvalid]
    simpa using hcne
  obtain ⟨e0, erest, hcons⟩ : ∃ e0 erest,
      (ingestLoop f (chunk_text rawText)).1 = e0 :: erest := by
    cases hh : (ingestLoop f (chunk_text rawText)).1 with
    | nil => exact absurd hh hemb
    | cons a b => exact ⟨a, b, rfl⟩
  refine ⟨?_, ?_, ?_⟩
  · unfold run_ingestion
    rw [if_neg hraw, hcons]
    rfl
  · unfold run_ingestion
    rw [if_neg hraw, hcons, hvalid]
    rfl
  · intro j hj
    have hchar := (chunk_text_char rawText).2.2 j hj
    rw [hchar]
    rfl

/-- Witness for C5 (amended): a two-character text with an
always-succeeding embedding oracle persists the single chunk with id
chunk_0. -/
theorem C5_id_lockstep_amended_witness :
    (run_ingestion embedOk true true ['a', 'b'] ⟨none, none⟩).1 = .ok () :=
  (C5_id_lockstep_amended embedOk ['a', 'b'] ⟨none, none⟩ (by simp)
    (fun c _ => rfl)).1

/-- Counterexample to C8 as stated: the index holds two vectors while
the corpus holds one chunk — mismatched lengths.  The store loads both
artifacts without any pairing or length check, and retrieve returns the
in-range chunk, a nonempty partial result, instead of treating the
mismatched pair as corrupt/absent state. -/
theorem C8_mismatch_partial_result :
    retrieve embedOk sfTwo (load_data false ⟨some idx2, some [cDemo]⟩) ['q'] 2
      = [cDemo] ∧ [cDemo] ≠ ([] : List Chunk) := by decide

/-- C8 (amended): ingestion writes the two artifacts directly to their
final paths at the end of the run, index first: if the index write
succeeds and the chunks write fails, the run errors but leaves the new
index beside a truncated chunks file — partial state, with no
temp-file-and-rename discipline.  At load time the artifacts are loaded
independently: a missing chunks file still leaves the index loaded.
retrieve degrades to [] when either artifact is missing or empty, but a
length mismatch is not detected: out-of-range positions are silently
discarded and in-range ones returned. -/
theorem C8_persistence_amended :
    ∀ (f : List Char → Option (List Rat)) (rawText : List Char) (fs : FS)
      (v : List Rat) (vrest : List (List Rat)),
      (rawText ≠ [] → (ingestLoop f (chunk_text rawText)).1 = v :: vrest →
        (run_ingestion f true false rawText fs).1 = .error .writeChunksFailed ∧
        (run_ingestion f true false rawText fs).2.indexFile
          = some ⟨v.length, v :: vrest⟩ ∧
        (run_ingestion f true false rawText fs).2.chunksFile = none) ∧
      (∀ idx, load_data false ⟨some idx, none⟩ = ⟨some idx, []⟩) ∧
      (∀ ef sf (vs : VectorStore) q k, vs.index = none ∨ vs.chunks = [] →
        retrieve ef sf vs q k = ([] : List Chunk)) ∧
      (∀ ef sf (idx : FaissIndex) (c : Chunk) (q : List Char) (k : Nat) qe,
        ef q = some qe → sf idx qe k = some [0, 1] →
        retrieve ef sf (load_data false ⟨some idx, some [c]⟩) q k = [c]) := by
  intro f rawText fs v vrest
  refine ⟨?_, ?_, ?_, ?_⟩
  · intro hraw hcons
    refine ⟨?_, ?_, ?_⟩ <;>
      · unfold run_ingestion
        rw [if_neg hraw, hcons]
        rfl
  · intro idx
    rfl
  · intro ef sf vs q k h
    exact retrieve_no_kb ef sf vs q k h
  · intro ef sf idx c q k qe hq hs
    have hvs : load_data false ⟨some idx, some [c]⟩
        = VectorStore.mk (some idx) [c] := rfl
    rw [hvs]
    simp only [retrieve, hq, hs]
    have hne : ([c] : List Chunk) ≠ [] := by simp
    rw [if_neg hne]
    simp [List.filterMap]

/-- Witness for C8 (amended): a two-character text whose single chunk
embeds successfully; the index write succeeds and the chunks write
fails, leaving the new index with a truncated corpus. -/
theorem C8_persistence_amended_witness :
    (run_ingestion embedOk true false ['a', 'b'] ⟨none, none⟩).1
      = .error .writeChunksFailed ∧
    (run_ingestion embedOk true false ['a', 'b'] ⟨none, none⟩).2.chunksFile
      = none := by
  have h := (C8_persistence_amended embedOk ['a', 'b'] ⟨none, none⟩ [1] []).1
    (by simp) (by decide)
  exact ⟨h.1, h.2.2⟩
